import Mathlib

/-!
Verification of the policy registry and enforcement-level resolution engine
of the pulumi-awsguard policy pack.

The development shallowly embeds the TypeScript sources:

* `getValueOrDefault` and the test runner `runPolicy` from `src/util.ts`
  (together with its test helpers file);
* `registerPolicy`, `getNameAndArgs` and `getPolicies` from `src/awsGuard.ts`
  (the factory-table version of the module);
* the per-policy factory pattern used by the rule modules
  (`getValueOrDefault(args, { enforcementLevel: defaultEnforcementLevel, ... })`).

JavaScript records are embedded as association lists of string keys, in
insertion order, with the JS property-write semantics (`recordSet` updates the
first occurrence in place, otherwise appends).  Absent properties are `none`
under `recordGet`; a property that is present with value `undefined` is an
entry whose value is the explicit `undef`/`vundef` constructor, matching the
`hasOwnProperty` / truthiness distinctions the sources rely on.
-/

namespace AwsGuard

/-- Primitive JavaScript field values stored inside a policy-config bag.
`vundef` is the JS value `undefined` (distinct from the property being
absent from the record). -/
inductive FieldVal
  | vundef
  | vnull
  | vstr (s : String)
  | vbool (b : Bool)
  | vnum (n : Int)
deriving DecidableEq, Repr

/-- A JS object holding primitive values: a config bag such as the
`{ enforcementLevel: ..., kmsId: ... }` bags of the rule modules. -/
abbrev JSObj := List (String × FieldVal)

/-- A value stored under one key of the user-facing `AwsGuardArgs` record:
either `undefined`, `null`, a string (e.g. an enforcement level), or a
nested config-bag object. -/
inductive ArgVal
  | undef
  | null
  | str (s : String)
  | obj (fields : JSObj)
deriving DecidableEq, Repr

/-- The user-facing `AwsGuardArgs` record. -/
abbrev ArgsObj := List (String × ArgVal)

/-- The optional `args` parameter of `getPolicies`: JS `undefined`, `null`,
or an `AwsGuardArgs` object. -/
inductive ArgsParam
  | undef
  | null
  | obj (fields : ArgsObj)
deriving DecidableEq, Repr

/-- Property read on a JS record: first entry with the key, if any. -/
def recordGet {α : Type} : List (String × α) → String → Option α
  | [], _ => none
  | (k', v) :: rest, k => if k' = k then some v else recordGet rest k

/-- JS `hasOwnProperty`. -/
def recordHas {α : Type} (r : List (String × α)) (k : String) : Bool :=
  (recordGet r k).isSome

/-- Property write on a JS record: overwrite the first entry with the key in
place (keeping its position), otherwise append a new entry. -/
def recordSet {α : Type} : List (String × α) → String → α → List (String × α)
  | [], k, v => [(k, v)]
  | (k', v') :: rest, k, v =>
      if k' = k then (k, v) :: rest else (k', v') :: recordSet rest k v

/-- JS `Object.keys`, in insertion order. -/
def recordKeys {α : Type} (r : List (String × α)) : List String :=
  r.map Prod.fst

/-- Modelled from the spec: the closed set of enforcement levels
(`src/enforcementLevel.ts` is not among the provided sources; only its
callers and tests are).  Spec section 4.1: a closed three-valued severity
tag `mandatory`, `advisory`, `disabled`. -/
def enforcementLevels : List String := ["advisory", "mandatory", "disabled"]

/-- Modelled from the spec: `isEnforcementLevel` is the membership test
against the closed enforcement-level set (spec section 4.1). -/
def isEnforcementLevel (s : String) : Bool :=
  enforcementLevels.contains s

/-- Modelled from the spec: the builtin default enforcement level is a fixed
constant (spec section 4.3 step 1); its value is pinned to "advisory" by the
unit tests of `getPolicies` in the sources. -/
def defaultEnforcementLevel : String := "advisory"

/-- JS truthiness of an `ArgVal`: `undefined`, `null` and the empty string
are falsy; any other string and every object are truthy. -/
def argTruthy : ArgVal → Bool
  | ArgVal.undef => false
  | ArgVal.null => false
  | ArgVal.str s => !(s == "")
  | ArgVal.obj _ => true

/-- One step of the property-copy loop of `getValueOrDefault`:
`if (v !== undefined) { result[p] = v; }`. -/
def gvdStep (r : JSObj) (kv : String × FieldVal) : JSObj :=
  if kv.2 = FieldVal.vundef then r else recordSet r kv.1 kv.2

/-- Embedding of `getValueOrDefault(args, def)` from `src/util.ts`: start
from a copy of the defaults bag; return it unchanged for falsy `args`;
for an enforcement-level string set only `enforcementLevel`; for an object
copy every defined property over the defaults; any other value (e.g. an
unrecognized string) falls through and leaves the defaults unchanged. -/
def getValueOrDefault (args : ArgVal) (d : JSObj) : JSObj :=
  match args with
  | ArgVal.undef => d
  | ArgVal.null => d
  | ArgVal.str s =>
      if s == "" then d
      else if isEnforcementLevel s then recordSet d "enforcementLevel" (FieldVal.vstr s)
      else d
  | ArgVal.obj fields => fields.foldl gvdStep d

/-- A policy as assembled by a rule module's factory: its external name, the
`enforcementLevel` property of the produced policy object, and the rest of
the effective config bag. -/
structure Policy where
  name : String
  enforcementLevel : FieldVal
  config : JSObj
deriving DecidableEq, Repr

/-- A `PolicyFactory`: rule modules register functions from the per-rule
override value to a policy object. -/
abbrev Factory := ArgVal → Policy

/-- The module-level `factoryMap` record of `src/awsGuard.ts`, passed
explicitly. -/
abbrev FactoryTable := List (String × Factory)

/-- The factory pattern of the configurable rule modules (for example
`ec2VolumeInUse` and `encryptedVolumes` in `src/compute.ts`): destructure
`getValueOrDefault(args, defaultsBag)` and build the policy with the
resulting `enforcementLevel` and config fields. -/
def guardFactory (nm : String) (dbag : JSObj) : Factory :=
  fun a =>
    let bag := getValueOrDefault a dbag
    { name := nm
      enforcementLevel := (recordGet bag "enforcementLevel").getD FieldVal.vundef
      config := bag }

/-- Embedding of `registerPolicy(property, factory)` from `src/awsGuard.ts`,
with the module-level `factoryMap` threaded explicitly and JS exceptions as
`Except.error`.  A `factory` argument that is not a function is the `none`
case.  Note the source checks reservation of "all", duplication, and that
the factory is a function; it never checks that `property` is non-empty. -/
def registerPolicy (table : FactoryTable) (property : String)
    (factory : Option Factory) : Except String FactoryTable :=
  match factory with
  | none => Except.error "factory must be a function."
  | some f =>
      if property == "all" then Except.error "all is reserved."
      else if property ∈ recordKeys table then Except.error (property ++ " already exists.")
      else Except.ok (table ++ [(property, f)])

/-- Whether a `registerPolicy` call raised. -/
def registerFails {α : Type} : Except String α → Bool
  | Except.error _ => true
  | Except.ok _ => false

/-- The first parameter of the `AwsGuard` constructor overloads: absent, a
pack name, or an `AwsGuardArgs` object. -/
inductive NameOrArgs
  | undef
  | str (s : String)
  | obj (fields : ArgsObj)
deriving DecidableEq, Repr

/-- The default policy-pack name of `src/awsGuard.ts`. -/
def defaultPolicyPackName : String := "pulumi-awsguard"

/-- Embedding of `getNameAndArgs(nameOrArgs, args)` from `src/awsGuard.ts`:
a string first parameter becomes the name; an object first parameter
becomes the args (discarding the second parameter); otherwise the default
name and the second parameter are used. -/
def getNameAndArgs (nameOrArgs : NameOrArgs) (args : Option ArgsObj) :
    String × Option ArgsObj :=
  match nameOrArgs with
  | NameOrArgs.str s => (s, args)
  | NameOrArgs.obj fields => (defaultPolicyPackName, some fields)
  | NameOrArgs.undef => (defaultPolicyPackName, args)

/-- The `args` normalization prologue of `getPolicies`: falsy or empty args
become `{ all: defaultEnforcementLevel }`; args without a truthy `all`
are cloned and get `all` set to the default. -/
def normalizeArgs : ArgsParam → ArgsObj
  | ArgsParam.undef => [("all", ArgVal.str defaultEnforcementLevel)]
  | ArgsParam.null => [("all", ArgVal.str defaultEnforcementLevel)]
  | ArgsParam.obj fields =>
      if fields.length == 0 then [("all", ArgVal.str defaultEnforcementLevel)]
      else if argTruthy ((recordGet fields "all").getD ArgVal.undef) then fields
      else recordSet fields "all" (ArgVal.str defaultEnforcementLevel)

/-- The skip test of the `getPolicies` loop:
`isEnforcementLevel(factoryArgs) && factoryArgs === "disabled"`. -/
def isDisabledArg : ArgVal → Bool
  | ArgVal.str s => isEnforcementLevel s && s == "disabled"
  | _ => false

/-- One iteration of the `getPolicies` loop for a given key of the factory
table: look up the per-key override (falling back to `args.all` when the
override is falsy), skip the rule when the override is the literal
"disabled", otherwise invoke the factory. -/
def resolveKey (factories : FactoryTable) (a1 : ArgsObj) (key : String) :
    Option Policy :=
  match recordGet factories key with
  | none => none
  | some factory =>
      let fa0 : ArgVal :=
        if recordHas a1 key then (recordGet a1 key).getD ArgVal.undef else ArgVal.undef
      let fa : ArgVal :=
        if argTruthy fa0 then fa0 else (recordGet a1 "all").getD ArgVal.undef
      if isDisabledArg fa then none else some (factory fa)

/-- The final filter of `getPolicies`:
`policies.filter(p => p.enforcementLevel !== "disabled")`. -/
def keepPolicy (p : Policy) : Bool :=
  !(p.enforcementLevel == FieldVal.vstr "disabled")

/-- The code units of a string, as compared by the default JS
`Array.prototype.sort()` comparator (identical to code-point order on the
basic multilingual plane; all rule ids are ASCII). -/
def codeUnits (s : String) : List Nat := s.data.map Char.toNat

/-- The default JS string ordering: lexicographic on code units. -/
def strLe (a b : String) : Prop := codeUnits a ≤ codeUnits b

instance strLe.decidableRel : DecidableRel strLe := fun a b =>
  inferInstanceAs (Decidable (codeUnits a ≤ codeUnits b))

/-- JS `Object.keys(...).sort()` on the factory table's keys. -/
def sortStrings (l : List String) : List String :=
  l.insertionSort strLe

/-- Embedding of `getPolicies(factories, args)` from `src/awsGuard.ts`:
normalize the args, iterate the factory keys in sorted order, resolve each
key (skipping explicitly disabled rules), and filter out any policies that
still carry the "disabled" enforcement level. -/
def getPolicies (factories : FactoryTable) (args : ArgsParam) : List Policy :=
  let a1 := normalizeArgs args
  let keys := sortStrings (recordKeys factories)
  (keys.filterMap (resolveKey factories a1)).filter keepPolicy

/-- The subject handed to a resource-validation callback: a declared
resource's type tag and property bag. -/
structure ResourceValidationArgs where
  typ : String
  props : JSObj
deriving DecidableEq, Repr

/-- A violation collected by the runner's `report` closure. -/
structure PolicyViolation where
  message : String
  urn : Option String
deriving DecidableEq, Repr

/-- A validation callback: reports a list of violations through the
provided reporting closure, or throws (the `Except.error` case), in which
case any violations it pushed before throwing are unobservable because the
runner's promise rejects. -/
abbrev Validation := ResourceValidationArgs → Except String (List PolicyViolation)

/-- The `validateResource` field of a resource policy: one callback or an
array of callbacks (`Array.isArray(resPolicy.validateResource)`). -/
inductive ValidateResource
  | single (v : Validation)
  | array (vs : List Validation)

/-- A resource-validation policy, as consumed by the test runner. -/
structure ResourceValidationPolicy where
  name : String
  validateResource : ValidateResource

/-- The sequential `for (const validation of validations) { await ... }`
loop of `runPolicy`, accumulating the violations pushed so far; a throwing
callback rejects the whole run and the remaining callbacks never execute. -/
def runPolicyGo (a : ResourceValidationArgs) :
    List Validation → List PolicyViolation → Except String (List PolicyViolation)
  | [], acc => Except.ok acc
  | v :: rest, acc =>
      match v a with
      | Except.error e => Except.error e
      | Except.ok vs => runPolicyGo a rest (acc ++ vs)

/-- Embedding of `runPolicy(resPolicy, args)` from the test utilities:
normalize `validateResource` to an array and run the callbacks in order,
collecting reported violations; exceptions propagate. -/
def runPolicy (p : ResourceValidationPolicy) (a : ResourceValidationArgs) :
    Except String (List PolicyViolation) :=
  let validations :=
    match p.validateResource with
    | ValidateResource.array vs => vs
    | ValidateResource.single v => [v]
  runPolicyGo a validations []

section RecordLemmas

variable {α : Type}

theorem recordGet_recordSet_self (r : List (String × α)) (k : String) (v : α) :
    recordGet (recordSet r k v) k = some v := by
  induction r with
  | nil => simp [recordSet, recordGet]
  | cons hd tl ih =>
      obtain ⟨k', v'⟩ := hd
      by_cases h : k' = k
      · simp [recordSet, recordGet, h]
      · simp [recordSet, recordGet, h, ih]

theorem recordGet_recordSet_ne (r : List (String × α)) (k k' : String) (v : α)
    (h : k' ≠ k) : recordGet (recordSet r k v) k' = recordGet r k' := by
  have hk : k ≠ k' := fun hh => h hh.symm
  induction r with
  | nil => simp [recordSet, recordGet, hk]
  | cons hd tl ih =>
      obtain ⟨k0, v0⟩ := hd
      by_cases h0 : k0 = k
      · subst h0
        simp [recordSet, recordGet, hk]
      · simp [recordSet, recordGet, h0, ih]

theorem recordGet_eq_none_of_not_mem (r : List (String × α)) (k : String)
    (h : k ∉ recordKeys r) : recordGet r k = none := by
  induction r with
  | nil => simp [recordGet]
  | cons hd tl ih =>
      obtain ⟨k', v⟩ := hd
      simp only [recordKeys, List.map_cons, List.mem_cons] at h
      push_neg at h
      have h1 : k' ≠ k := fun hh => h.1 hh.symm
      simp only [recordGet, if_neg h1]
      exact ih (by simpa [recordKeys] using h.2)

theorem recordGet_isSome_of_mem (r : List (String × α)) (k : String)
    (h : k ∈ recordKeys r) : (recordGet r k).isSome := by
  induction r with
  | nil => simp [recordKeys] at h
  | cons hd tl ih =>
      obtain ⟨k', v⟩ := hd
      by_cases h0 : k' = k
      · simp [recordGet, h0]
      · simp only [recordKeys, List.map_cons, List.mem_cons] at h
        rcases h with h | h
        · exact absurd h.symm h0
        · simp only [recordGet, if_neg h0]
          exact ih (by simpa [recordKeys] using h)

theorem mem_recordKeys_of_mem {r : List (String × α)} {e : String × α}
    (h : e ∈ r) : e.1 ∈ recordKeys r := by
  simpa [recordKeys] using List.mem_map_of_mem Prod.fst h

theorem recordGet_mem {r : List (String × α)} {k : String} {v : α}
    (h : recordGet r k = some v) : (k, v) ∈ r := by
  induction r with
  | nil => simp [recordGet] at h
  | cons hd tl ih =>
      obtain ⟨k', v'⟩ := hd
      by_cases h0 : k' = k
      · subst h0
        rw [recordGet, if_pos rfl] at h
        obtain rfl : v' = v := Option.some.inj h
        exact List.mem_cons_self _ _
      · rw [recordGet, if_neg h0] at h
        exact List.mem_cons_of_mem _ (ih h)

theorem recordGet_perm {r₁ r₂ : List (String × α)} (hp : r₁.Perm r₂)
    (hnd : (recordKeys r₁).Nodup) (k : String) :
    recordGet r₁ k = recordGet r₂ k := by
  induction hp with
  | nil => rfl
  | cons x l ih =>
      obtain ⟨k', v'⟩ := x
      by_cases h0 : k' = k
      · simp [recordGet, h0]
      · simp only [recordGet, if_neg h0]
        exact ih (by
          simp only [recordKeys, List.map_cons, List.nodup_cons] at hnd
          exact hnd.2)
  | swap x y l =>
      obtain ⟨kx, vx⟩ := x
      obtain ⟨ky, vy⟩ := y
      simp only [recordKeys, List.map_cons, List.nodup_cons, List.mem_cons] at hnd
      by_cases hy : ky = k
      · by_cases hx : kx = k
        · exact absurd (hy.trans hx.symm) (fun hh => hnd.1 (Or.inl hh))
        · simp [recordGet, hx, hy]
      · simp [recordGet, hy]
  | trans h₁ h₂ ih₁ ih₂ =>
      refine (ih₁ hnd).trans (ih₂ ?_)
      have : (recordKeys _).Perm (recordKeys _) := h₁.map Prod.fst
      exact this.nodup hnd

end RecordLemmas

theorem isEnforcementLevel_cases {l : String} (h : isEnforcementLevel l = true) :
    l = "advisory" ∨ l = "mandatory" ∨ l = "disabled" := by
  simpa [isEnforcementLevel, enforcementLevels] using h

theorem level_ne_empty {l : String} (h : isEnforcementLevel l = true) :
    (l == "") = false := by
  rcases isEnforcementLevel_cases h with h1 | h1 | h1 <;> subst h1 <;> decide

/-- The property-copy semantics of the object branch of `getValueOrDefault`:
a key defined in the override wins, everything else falls back to the
defaults bag. -/
theorem foldl_gvdStep_get (o : JSObj) (d : JSObj) (p : String)
    (hnd : (recordKeys o).Nodup) :
    recordGet (o.foldl gvdStep d) p =
      match recordGet o p with
      | some v => if v = FieldVal.vundef then recordGet d p else some v
      | none => recordGet d p := by
  induction o generalizing d with
  | nil => simp [recordGet]
  | cons hd tl ih =>
      obtain ⟨k, v⟩ := hd
      simp only [recordKeys, List.map_cons, List.nodup_cons] at hnd
      have htl := ih (gvdStep d (k, v)) hnd.2
      by_cases hk : k = p
      · subst hk
        have hnotin : recordGet tl k = none := by
          apply recordGet_eq_none_of_not_mem
          simpa [recordKeys] using hnd.1
        rw [List.foldl_cons, htl, hnotin]
        by_cases hv : v = FieldVal.vundef
        · simp [recordGet, gvdStep, hv]
        · simp [recordGet, gvdStep, hv, recordGet_recordSet_self]
      · have hstep : recordGet (gvdStep d (k, v)) p = recordGet d p := by
          by_cases hv : v = FieldVal.vundef
          · simp [gvdStep, hv]
          · simp [gvdStep, hv, recordGet_recordSet_ne _ _ _ _ (fun hh => hk hh.symm)]
        rw [List.foldl_cons, htl, hstep]
        simp [recordGet, hk]

/-- Length of a `filterMap` that never drops an element. -/
theorem length_filterMap_of_isSome {γ β : Type} {l : List γ} {f : γ → Option β}
    (h : ∀ x ∈ l, (f x).isSome) : (l.filterMap f).length = l.length := by
  induction l with
  | nil => rfl
  | cons a l ih =>
      have ha := h a (List.mem_cons_self a l)
      obtain ⟨y, hy⟩ := Option.isSome_iff_exists.mp ha
      rw [List.filterMap_cons, hy, List.length_cons, List.length_cons,
        ih (fun x hx => h x (List.mem_cons_of_mem a hx))]

/-- A `filterMap` over a duplicate-free list that keeps exactly one element. -/
theorem filterMap_eq_single {β : Type} {l : List String} {f : String → Option β}
    {R : String} {y : β}
    (hnd : l.Nodup) (hR : R ∈ l) (hfR : f R = some y)
    (hother : ∀ k ∈ l, k ≠ R → f k = none) :
    l.filterMap f = [y] := by
  induction l with
  | nil => cases hR
  | cons a l ih =>
      rw [List.nodup_cons] at hnd
      by_cases ha : a = R
      · subst ha
        rw [List.filterMap_cons, hfR]
        have hnil : l.filterMap f = [] := by
          rw [List.filterMap_eq_nil_iff]
          intro k hk
          exact hother k (List.mem_cons_of_mem _ hk)
            (fun hh => hnd.1 (hh ▸ hk))
        rw [hnil]
      · rw [List.filterMap_cons,
          hother a (List.mem_cons_self a l) ha]
        rcases List.mem_cons.mp hR with h | h
        · exact absurd h.symm ha
        · exact ih hnd.2 h (fun k hk hkR => hother k (List.mem_cons_of_mem _ hk) hkR)

/-- Restatement of `getPolicies` as a single `filterMap` over the sorted
keys, with the final disabled-filter pushed into each iteration. -/
theorem getPolicies_eq_filterMap (factories : FactoryTable) (args : ArgsParam) :
    getPolicies factories args =
      (sortStrings (recordKeys factories)).filterMap
        (fun k => (resolveKey factories (normalizeArgs args) k).filter keepPolicy) := by
  unfold getPolicies
  exact List.filter_filterMap _ _ _

theorem codeUnits_injective : Function.Injective codeUnits := by
  intro a b h
  apply String.ext
  refine List.map_injective_iff.mpr ?_ h
  intro x y hxy
  apply Char.ext
  exact UInt32.toNat.inj hxy

instance : IsTrans String strLe := ⟨fun _ _ _ => le_trans⟩

instance : IsTotal String strLe := ⟨fun _ _ => le_total _ _⟩

instance : IsAntisymm String strLe :=
  ⟨fun _ _ h1 h2 => codeUnits_injective (le_antisymm h1 h2)⟩

theorem sortStrings_perm (l : List String) : (sortStrings l).Perm l :=
  List.perm_insertionSort _ l

theorem sortStrings_sorted (l : List String) :
    List.Sorted strLe (sortStrings l) :=
  List.sorted_insertionSort _ l

theorem recordGet_append_single {α : Type} (t : List (String × α)) (k : String) (v : α)
    (h : k ∉ recordKeys t) : recordGet (t ++ [(k, v)]) k = some v := by
  induction t with
  | nil => simp [recordGet]
  | cons hd tl ih =>
      obtain ⟨k', v'⟩ := hd
      simp only [recordKeys, List.map_cons, List.mem_cons] at h
      push_neg at h
      have h1 : k' ≠ k := fun hh => h.1 hh.symm
      rw [List.cons_append]
      simp only [recordGet, if_neg h1]
      exact ih (by simpa [recordKeys] using h.2)

/-- Every factory built by the `getValueOrDefault` pattern maps a valid
enforcement-level override to a policy at exactly that level. -/
theorem guardFactory_level (nm : String) (dbag : JSObj) (s : String)
    (hs : isEnforcementLevel s = true) :
    (guardFactory nm dbag (ArgVal.str s)).enforcementLevel = FieldVal.vstr s := by
  have hne := level_ne_empty hs
  simp [guardFactory, getValueOrDefault, hne, hs, recordGet_recordSet_self]

/-- A concrete configurable factory, mirroring `ec2VolumeInUse` in
`src/compute.ts`. -/
def volumeFactory : Factory :=
  guardFactory "ec2-volume-inuse-check"
    [("enforcementLevel", FieldVal.vstr defaultEnforcementLevel),
     ("checkDeletion", FieldVal.vbool true)]

/-- A concrete configurable factory, mirroring `encryptedVolumes` in
`src/compute.ts`. -/
def encryptedFactory : Factory :=
  guardFactory "encrypted-volumes"
    [("enforcementLevel", FieldVal.vstr defaultEnforcementLevel),
     ("kmsId", FieldVal.vundef)]

/-- A concrete two-rule registration table. -/
def sampleTable : FactoryTable :=
  [("ec2VolumeInUseCheck", volumeFactory), ("encryptedVolumes", encryptedFactory)]

/-- C6: for every per-rule override object `o` (with duplicate-free keys,
as any JS object has) and defaults bag `d`, the effective config bag
computed by `getValueOrDefault (obj o) d` maps every field whose value in
`o` is defined to `o`'s value, and every field absent from (or `undefined`
in) `o` to `d`'s value for that field.  The embedding is purely functional,
so neither `o` nor `d` is modified by the call. -/
theorem getValueOrDefault_merges_override_over_defaults
    (o d : JSObj) (hnd : (recordKeys o).Nodup) (p : String) :
    recordGet (getValueOrDefault (ArgVal.obj o) d) p =
      match recordGet o p with
      | some v => if v = FieldVal.vundef then recordGet d p else some v
      | none => recordGet d p :=
  foldl_gvdStep_get o d p hnd

theorem getValueOrDefault_merges_witness :
    recordGet (getValueOrDefault (ArgVal.obj [("foo", FieldVal.vstr "bar")])
        [("enforcementLevel", FieldVal.vstr "mandatory"), ("foo", FieldVal.vundef)]) "foo"
      = some (FieldVal.vstr "bar")
    ∧ recordGet (getValueOrDefault (ArgVal.obj [("foo", FieldVal.vstr "bar")])
        [("enforcementLevel", FieldVal.vstr "mandatory"), ("foo", FieldVal.vundef)])
        "enforcementLevel"
      = some (FieldVal.vstr "mandatory") := by
  constructor
  · exact (getValueOrDefault_merges_override_over_defaults
      [("foo", FieldVal.vstr "bar")]
      [("enforcementLevel", FieldVal.vstr "mandatory"), ("foo", FieldVal.vundef)]
      (by decide) "foo").trans (by decide)
  · exact (getValueOrDefault_merges_override_over_defaults
      [("foo", FieldVal.vstr "bar")]
      [("enforcementLevel", FieldVal.vstr "mandatory"), ("foo", FieldVal.vundef)]
      (by decide) "enforcementLevel").trans (by decide)

/-- C7: an override value that is neither a member of the closed
enforcement-level set nor an object (for example an arbitrary unrecognized
string, `null`, or `undefined`) is treated as "no override": resolution
returns the defaults bag unchanged, and — the embedding being total — it
does not throw. -/
theorem getValueOrDefault_malformed_override_falls_back
    (v : ArgVal) (d : JSObj)
    (hstr : ∀ s, v = ArgVal.str s → isEnforcementLevel s = false)
    (hobj : ∀ o, v ≠ ArgVal.obj o) :
    getValueOrDefault v d = d := by
  cases v with
  | undef => rfl
  | null => rfl
  | str s =>
      have hs := hstr s rfl
      by_cases he : s == ""
      · simp [getValueOrDefault, he]
      · simp [getValueOrDefault, he, hs]
  | obj o => exact absurd rfl (hobj o)

theorem getValueOrDefault_malformed_witness :
    getValueOrDefault (ArgVal.str "invalidEnforcementLevel")
      [("enforcementLevel", FieldVal.vstr "mandatory"), ("foo", FieldVal.vundef)]
      = [("enforcementLevel", FieldVal.vstr "mandatory"), ("foo", FieldVal.vundef)] :=
  getValueOrDefault_malformed_override_falls_back _ _
    (fun s hs => by cases hs; decide)
    (fun o h => by cases h)

/-- C8: two calls of `getPolicies` on the same factory table and the same
user configuration yield identical output lists.  The embedding passes the
module-level `factoryMap` explicitly and is purely functional, so the
resolution reads no state other than its two arguments. -/
theorem getPolicies_deterministic (f₁ f₂ : FactoryTable) (a₁ a₂ : ArgsParam)
    (hf : f₁ = f₂) (ha : a₁ = a₂) :
    getPolicies f₁ a₁ = getPolicies f₂ a₂ := by
  rw [hf, ha]

theorem getPolicies_deterministic_witness :
    getPolicies sampleTable (ArgsParam.obj [("all", ArgVal.str "mandatory")])
      = getPolicies sampleTable (ArgsParam.obj [("all", ArgVal.str "mandatory")]) :=
  getPolicies_deterministic sampleTable sampleTable _ _ rfl rfl

/-- C10: overload resolution of `getNameAndArgs`: a string first parameter
becomes the pack name with the second parameter as args; an object first
parameter (including the empty object) becomes the args with the default
name "pulumi-awsguard", silently discarding any second parameter; an
absent first parameter yields the default name with the second parameter
as args. -/
theorem getNameAndArgs_overloads :
    defaultPolicyPackName = "pulumi-awsguard"
    ∧ (∀ (s : String) (args : Option ArgsObj),
        getNameAndArgs (NameOrArgs.str s) args = (s, args))
    ∧ (∀ (o : ArgsObj) (args : Option ArgsObj),
        getNameAndArgs (NameOrArgs.obj o) args = (defaultPolicyPackName, some o))
    ∧ (∀ args : Option ArgsObj,
        getNameAndArgs NameOrArgs.undef args = (defaultPolicyPackName, args)) :=
  ⟨rfl, fun _ _ => rfl, fun _ _ => rfl, fun _ => rfl⟩

/-- A concrete factory used by registration counterexamples and witnesses. -/
def constFactory : Factory :=
  guardFactory "encrypted-volumes"
    [("enforcementLevel", FieldVal.vstr defaultEnforcementLevel)]

/-- C3 counterexample: `registerPolicy` does NOT raise on an empty rule id.
Registering the id "" into an empty table with a valid factory succeeds,
refuting the claimed "raises iff the id is empty, the id is `all`, or the
id is already present". -/
theorem registerPolicy_empty_id_counterexample :
    ¬(registerFails (registerPolicy [] "" (some constFactory)) = true
      ↔ ("" = "" ∨ "" = "all" ∨ "" ∈ recordKeys ([] : FactoryTable))) := by
  intro h
  have h1 := h.mpr (Or.inl rfl)
  have h2 : registerFails (registerPolicy [] "" (some constFactory)) = false := by decide
  rw [h1] at h2
  cases h2

/-- C3 amended: `registerPolicy` raises exactly when the factory argument
is not a function (`none`), the id equals the reserved name "all", or the
id is already present in the table — an empty id is not checked; on
success the factory is appended and retrievable under the id. -/
theorem registerPolicy_contract (t : FactoryTable) (id : String) (fo : Option Factory) :
    (registerFails (registerPolicy t id fo) = true
      ↔ (fo = none ∨ id = "all" ∨ id ∈ recordKeys t))
    ∧ (∀ f : Factory, fo = some f → id ≠ "all" → id ∉ recordKeys t →
        registerPolicy t id fo = Except.ok (t ++ [(id, f)])
        ∧ recordGet (t ++ [(id, f)]) id = some f) := by
  constructor
  · cases fo with
    | none => simp [registerPolicy, registerFails]
    | some f =>
        by_cases hall : id = "all"
        · simp [registerPolicy, registerFails, hall]
        · by_cases hmem : id ∈ recordKeys t
          · simp [registerPolicy, registerFails, hall, hmem]
          · simp [registerPolicy, registerFails, hall, hmem]
  · rintro f rfl hne hmem
    refine ⟨by simp [registerPolicy, hne, hmem], recordGet_append_single t id f hmem⟩

theorem registerPolicy_contract_witness :
    registerPolicy [] "encryptedVolumes" (some constFactory)
      = Except.ok [("encryptedVolumes", constFactory)]
    ∧ recordGet [("encryptedVolumes", constFactory)] "encryptedVolumes"
      = some constFactory := by
  have h := (registerPolicy_contract [] "encryptedVolumes" (some constFactory)).2
    constFactory rfl (by decide) (by simp [recordKeys])
  simpa using h

theorem runPolicyGo_append_error (a : ResourceValidationArgs) (e : String)
    (v : Validation) (hv : v a = Except.error e) :
    ∀ pre : List Validation, (∀ u ∈ pre, ∃ vs, u a = Except.ok vs) →
    ∀ (rest : List Validation) (acc : List PolicyViolation),
      runPolicyGo a (pre ++ v :: rest) acc = Except.error e := by
  intro pre
  induction pre with
  | nil =>
      intro _ rest acc
      simp [runPolicyGo, hv]
  | cons u pre ih =>
      intro hpre rest acc
      obtain ⟨vs, hu⟩ := hpre u (List.mem_cons_self u pre)
      rw [List.cons_append]
      simp only [runPolicyGo, hu]
      exact ih (fun w hw => hpre w (List.mem_cons_of_mem u hw)) rest (acc ++ vs)

/-- C9: if, among a policy's validation callbacks, every callback before
some callback `v` succeeds and `v` throws on subject `a`, then running the
policy on `a` propagates `v`'s exception to the caller: no violation list
is returned, and the callbacks after `v` are never invoked (the outcome is
the same for every possible list of later callbacks). -/
theorem runPolicy_throwing_callback_propagates
    (nm : String) (pre rest : List Validation) (v : Validation)
    (a : ResourceValidationArgs) (e : String)
    (hpre : ∀ u ∈ pre, ∃ vs, u a = Except.ok vs)
    (hv : v a = Except.error e) :
    runPolicy ⟨nm, ValidateResource.array (pre ++ v :: rest)⟩ a = Except.error e
    ∧ ∀ rest' : List Validation,
        runPolicy ⟨nm, ValidateResource.array (pre ++ v :: rest')⟩ a
          = Except.error e := by
  refine ⟨runPolicyGo_append_error a e v hv pre hpre rest [], fun rest' => ?_⟩
  exact runPolicyGo_append_error a e v hv pre hpre rest' []

/-- A callback that reports one violation. -/
def okValidation : Validation :=
  fun _ => Except.ok [⟨"EC2 instances must have an EBS volume attached", none⟩]

/-- A callback that throws. -/
def throwValidation : Validation := fun _ => Except.error "boom"

/-- A concrete subject record. -/
def sampleSubject : ResourceValidationArgs :=
  ⟨"aws:ec2/instance:Instance", [("monitoring", FieldVal.vbool false)]⟩

theorem resolveKey_perm (f₁ f₂ : FactoryTable) (hp : f₁.Perm f₂)
    (hnd : (recordKeys f₁).Nodup) (a1 : ArgsObj) (k : String) :
    resolveKey f₁ a1 k = resolveKey f₂ a1 k := by
  unfold resolveKey
  rw [recordGet_perm hp hnd k]

/-- C4: the assembled policy list is the filter of a `filterMap` over the
factory keys sorted in ascending order, that key list is sorted, and the
output is invariant under permuting the registration order of the table. -/
theorem getPolicies_sorted_and_order_independent
    (factories₁ factories₂ : FactoryTable) (args : ArgsParam)
    (hperm : factories₁.Perm factories₂)
    (hnd : (recordKeys factories₁).Nodup) :
    getPolicies factories₁ args = getPolicies factories₂ args
    ∧ getPolicies factories₁ args
        = ((sortStrings (recordKeys factories₁)).filterMap
            (resolveKey factories₁ (normalizeArgs args))).filter keepPolicy
    ∧ List.Sorted strLe (sortStrings (recordKeys factories₁)) := by
  have hkeys : sortStrings (recordKeys factories₁) = sortStrings (recordKeys factories₂) := by
    apply List.eq_of_perm_of_sorted ?_ (sortStrings_sorted _) (sortStrings_sorted _)
    exact (sortStrings_perm _).trans ((hperm.map Prod.fst).trans (sortStrings_perm _).symm)
  refine ⟨?_, rfl, sortStrings_sorted _⟩
  have h1 : getPolicies factories₁ args
      = ((sortStrings (recordKeys factories₁)).filterMap
          (resolveKey factories₁ (normalizeArgs args))).filter keepPolicy := rfl
  have h2 : getPolicies factories₂ args
      = ((sortStrings (recordKeys factories₂)).filterMap
          (resolveKey factories₂ (normalizeArgs args))).filter keepPolicy := rfl
  rw [h1, h2, hkeys]
  congr 1
  apply List.filterMap_congr
  intro k _
  exact resolveKey_perm factories₁ factories₂ hperm hnd (normalizeArgs args) k

theorem getPolicies_sorted_and_order_independent_witness :
    getPolicies sampleTable ArgsParam.undef
      = getPolicies [("encryptedVolumes", encryptedFactory),
          ("ec2VolumeInUseCheck", volumeFactory)] ArgsParam.undef :=
  (getPolicies_sorted_and_order_independent sampleTable
    [("encryptedVolumes", encryptedFactory), ("ec2VolumeInUseCheck", volumeFactory)]
    ArgsParam.undef (List.Perm.swap _ _ _) (by decide)).1

/-- Resolution against the synthesized `{ all: defaultEnforcementLevel }`
configuration: every registered key resolves to its factory applied to the
default level. -/
theorem resolveKey_default_all (factories : FactoryTable) (key : String) :
    resolveKey factories [("all", ArgVal.str defaultEnforcementLevel)] key
      = (recordGet factories key).map
          (fun f => f (ArgVal.str defaultEnforcementLevel)) := by
  unfold resolveKey
  cases hfk : recordGet factories key with
  | none => rfl
  | some factory =>
      by_cases hk : key = "all"
      · subst hk; rfl
      · have h1 : recordGet [("all", ArgVal.str defaultEnforcementLevel)] key
            = (none : Option ArgVal) := by
          simp [recordGet, Ne.symm hk]
        simp only [recordHas, h1, Option.isSome_none, Bool.false_eq_true, if_false,
          Option.map_some]
        rfl

/-- C2: resolving with an absent, `null`, or empty configuration, or one
whose `all` field is `undefined` or `null`, yields exactly one policy per
registered rule id — the `filterMap` ranges over the (duplicate-free) key
list, no entry is dropped, and the output length equals the table size —
each at the builtin default enforcement level. -/
theorem getPolicies_no_config_enables_all
    (factories : FactoryTable) (a : ArgsParam)
    (hlr : ∀ e ∈ factories, ∀ s : String, isEnforcementLevel s = true →
      (e.2 (ArgVal.str s)).enforcementLevel = FieldVal.vstr s)
    (ha : a = ArgsParam.undef ∨ a = ArgsParam.null ∨ a = ArgsParam.obj []
      ∨ a = ArgsParam.obj [("all", ArgVal.undef)]
      ∨ a = ArgsParam.obj [("all", ArgVal.null)]) :
    getPolicies factories a
      = (sortStrings (recordKeys factories)).filterMap
          (fun k => (recordGet factories k).map
            (fun f => f (ArgVal.str defaultEnforcementLevel)))
    ∧ (getPolicies factories a).length = factories.length
    ∧ ∀ p ∈ getPolicies factories a,
        p.enforcementLevel = FieldVal.vstr defaultEnforcementLevel := by
  have hnorm : normalizeArgs a = [("all", ArgVal.str defaultEnforcementLevel)] := by
    rcases ha with rfl | rfl | rfl | rfl | rfl <;> rfl
  have hpoint : ∀ k ∈ sortStrings (recordKeys factories),
      (resolveKey factories [("all", ArgVal.str defaultEnforcementLevel)] k).filter keepPolicy
        = (recordGet factories k).map (fun f => f (ArgVal.str defaultEnforcementLevel)) := by
    intro k _
    rw [resolveKey_default_all]
    cases hfk : recordGet factories k with
    | none => rfl
    | some f =>
        have hlev : (f (ArgVal.str defaultEnforcementLevel)).enforcementLevel
            = FieldVal.vstr defaultEnforcementLevel :=
          hlr (k, f) (recordGet_mem hfk) defaultEnforcementLevel (by decide)
        have hkeep : keepPolicy (f (ArgVal.str defaultEnforcementLevel)) = true := by
          simp only [keepPolicy, hlev]
          decide
        simp [Option.filter, hkeep]
  have hmain : getPolicies factories a
      = (sortStrings (recordKeys factories)).filterMap
          (fun k => (recordGet factories k).map
            (fun f => f (ArgVal.str defaultEnforcementLevel))) := by
    rw [getPolicies_eq_filterMap, hnorm]
    exact List.filterMap_congr hpoint
  refine ⟨hmain, ?_, ?_⟩
  · rw [hmain]
    have hlen : ((sortStrings (recordKeys factories)).filterMap
        (fun k => (recordGet factories k).map
          (fun f => f (ArgVal.str defaultEnforcementLevel)))).length
        = (sortStrings (recordKeys factories)).length := by
      apply length_filterMap_of_isSome
      intro k hk
      have hmem : k ∈ recordKeys factories := (sortStrings_perm _).mem_iff.mp hk
      have hsm := recordGet_isSome_of_mem factories k hmem
      cases hg : recordGet factories k with
      | none => rw [hg] at hsm; simp at hsm
      | some f => rfl
    rw [hlen, (sortStrings_perm _).length_eq]
    exact List.length_map _ _
  · intro p hp
    rw [hmain] at hp
    obtain ⟨k, _, hkp⟩ := List.mem_filterMap.mp hp
    cases hg : recordGet factories k with
    | none => rw [hg] at hkp; cases hkp
    | some f =>
        rw [hg] at hkp
        obtain rfl : f (ArgVal.str defaultEnforcementLevel) = p := Option.some.inj hkp
        have hlev : (f (ArgVal.str defaultEnforcementLevel)).enforcementLevel
            = FieldVal.vstr defaultEnforcementLevel :=
          hlr (k, f) (recordGet_mem hg) defaultEnforcementLevel (by decide)
        exact hlev

theorem getPolicies_no_config_witness :
    getPolicies sampleTable ArgsParam.undef
      = [volumeFactory (ArgVal.str defaultEnforcementLevel),
         encryptedFactory (ArgVal.str defaultEnforcementLevel)]
    ∧ (getPolicies sampleTable ArgsParam.undef).length = 2 := by
  have h := getPolicies_no_config_enables_all sampleTable ArgsParam.undef
    (fun e he s hs => by
      rcases List.mem_cons.mp he with rfl | he2
      · exact guardFactory_level _ _ s hs
      · rcases List.mem_cons.mp he2 with rfl | he3
        · exact guardFactory_level _ _ s hs
        · cases he3)
    (Or.inl rfl)
  exact ⟨h.1.trans (by decide), h.2.1⟩

theorem resolveKey_eval (factories : FactoryTable) (a1 : ArgsObj) (key : String)
    (factory : Factory) (hf : recordGet factories key = some factory) :
    resolveKey factories a1 key =
      (let fa0 : ArgVal :=
        if recordHas a1 key then (recordGet a1 key).getD ArgVal.undef else ArgVal.undef
       let fa : ArgVal :=
        if argTruthy fa0 then fa0 else (recordGet a1 "all").getD ArgVal.undef
       if isDisabledArg fa then none else some (factory fa)) := by
  unfold resolveKey
  rw [hf]

/-- C1: with the configuration `{ all: "disabled", R: "mandatory" }` the
resolved list is exactly the policy for the registered rule `R`, at level
mandatory; with `{ all: "advisory", R: "disabled" }` the resolved list is
every registered rule except `R`, each at level advisory.  Explicit
per-rule settings beat the global default in both directions.  The
`hlr` hypothesis states that each registered factory builds its policy at
the enforcement level it is handed, as every rule module in the sources
does. -/
theorem getPolicies_explicit_beats_global
    (factories : FactoryTable) (R : String) (fR : Factory)
    (hnd : (recordKeys factories).Nodup)
    (hall : "all" ∉ recordKeys factories)
    (hR : recordGet factories R = some fR)
    (hlr : ∀ e ∈ factories, ∀ s : String, isEnforcementLevel s = true →
      (e.2 (ArgVal.str s)).enforcementLevel = FieldVal.vstr s) :
    (getPolicies factories
        (ArgsParam.obj [("all", ArgVal.str "disabled"), (R, ArgVal.str "mandatory")])
      = [fR (ArgVal.str "mandatory")]
     ∧ (fR (ArgVal.str "mandatory")).enforcementLevel = FieldVal.vstr "mandatory")
    ∧ (getPolicies factories
        (ArgsParam.obj [("all", ArgVal.str "advisory"), (R, ArgVal.str "disabled")])
      = (sortStrings (recordKeys factories)).filterMap
          (fun k => if k = R then none
            else (recordGet factories k).map (fun f => f (ArgVal.str "advisory")))
     ∧ ∀ p ∈ getPolicies factories
          (ArgsParam.obj [("all", ArgVal.str "advisory"), (R, ArgVal.str "disabled")]),
        p.enforcementLevel = FieldVal.vstr "advisory") := by
  have hRmem : R ∈ recordKeys factories := mem_recordKeys_of_mem (recordGet_mem hR)
  have hRa : R ≠ "all" := fun h => hall (h ▸ hRmem)
  have hfRlev : (fR (ArgVal.str "mandatory")).enforcementLevel
      = FieldVal.vstr "mandatory" :=
    hlr (R, fR) (recordGet_mem hR) "mandatory" (by decide)
  constructor
  · constructor
    · rw [getPolicies_eq_filterMap]
      have hnorm : normalizeArgs (ArgsParam.obj
          [("all", ArgVal.str "disabled"), (R, ArgVal.str "mandatory")])
          = [("all", ArgVal.str "disabled"), (R, ArgVal.str "mandatory")] := rfl
      rw [hnorm]
      apply filterMap_eq_single ((sortStrings_perm _).symm.nodup hnd)
        ((sortStrings_perm _).mem_iff.mpr hRmem)
      · rw [resolveKey_eval factories _ R fR hR]
        have hgetR : recordGet
            [("all", ArgVal.str "disabled"), (R, ArgVal.str "mandatory")] R
            = some (ArgVal.str "mandatory") := by
          simp [recordGet, Ne.symm hRa]
        simp only [recordHas, hgetR, Option.isSome_some, if_true, Option.getD_some]
        have hkeep : keepPolicy (fR (ArgVal.str "mandatory")) = true := by
          simp only [keepPolicy, hfRlev]
          decide
        simp [argTruthy, isDisabledArg, isEnforcementLevel, enforcementLevels,
          Option.filter, hkeep]
      · intro k hk hkR
        have hkmem : k ∈ recordKeys factories := (sortStrings_perm _).mem_iff.mp hk
        have hka : k ≠ "all" := fun h => hall (h ▸ hkmem)
        have hgetk : recordGet
            [("all", ArgVal.str "disabled"), (R, ArgVal.str "mandatory")] k
            = (none : Option ArgVal) := by
          simp [recordGet, Ne.symm hka, Ne.symm hkR]
        cases hfk : recordGet factories k with
        | none => simp [resolveKey, hfk]
        | some f =>
            rw [resolveKey_eval factories _ k f hfk]
            simp only [recordHas, hgetk, Option.isSome_none, Bool.false_eq_true,
              if_false]
            rfl
    · exact hfRlev
  · have hnorm2 : normalizeArgs (ArgsParam.obj
        [("all", ArgVal.str "advisory"), (R, ArgVal.str "disabled")])
        = [("all", ArgVal.str "advisory"), (R, ArgVal.str "disabled")] := rfl
    have hmain : getPolicies factories
        (ArgsParam.obj [("all", ArgVal.str "advisory"), (R, ArgVal.str "disabled")])
        = (sortStrings (recordKeys factories)).filterMap
            (fun k => if k = R then none
              else (recordGet factories k).map (fun f => f (ArgVal.str "advisory"))) := by
      rw [getPolicies_eq_filterMap, hnorm2]
      apply List.filterMap_congr
      intro k hk
      have hkmem : k ∈ recordKeys factories := (sortStrings_perm _).mem_iff.mp hk
      have hka : k ≠ "all" := fun h => hall (h ▸ hkmem)
      by_cases hkR : k = R
      · subst hkR
        rw [if_pos rfl, resolveKey_eval factories _ k fR hR]
        have hgetR : recordGet
            [("all", ArgVal.str "advisory"), (k, ArgVal.str "disabled")] k
            = some (ArgVal.str "disabled") := by
          simp [recordGet, Ne.symm hka]
        simp only [recordHas, hgetR, Option.isSome_some, if_true, Option.getD_some]
        rfl
      · rw [if_neg hkR]
        have hgetk : recordGet
            [("all", ArgVal.str "advisory"), (R, ArgVal.str "disabled")] k
            = (none : Option ArgVal) := by
          simp [recordGet, Ne.symm hka, Ne.symm hkR]
        cases hfk : recordGet factories k with
        | none => simp [resolveKey, hfk]
        | some f =>
            rw [resolveKey_eval factories _ k f hfk]
            simp only [recordHas, hgetk, Option.isSome_none, Bool.false_eq_true,
              if_false, Option.map_some]
            have hlev : (f (ArgVal.str "advisory")).enforcementLevel
                = FieldVal.vstr "advisory" :=
              hlr (k, f) (recordGet_mem hfk) "advisory" (by decide)
            have hkeep : keepPolicy (f (ArgVal.str "advisory")) = true := by
              simp only [keepPolicy, hlev]
              decide
            simp [argTruthy, isDisabledArg, isEnforcementLevel, enforcementLevels,
              Option.filter, hkeep, recordGet]
    refine ⟨hmain, ?_⟩
    intro p hp
    rw [hmain] at hp
    obtain ⟨k, _, hkp⟩ := List.mem_filterMap.mp hp
    by_cases hkR : k = R
    · rw [if_pos hkR] at hkp
      cases hkp
    · rw [if_neg hkR] at hkp
      cases hfk : recordGet factories k with
      | none => rw [hfk] at hkp; cases hkp
      | some f =>
          rw [hfk] at hkp
          obtain rfl : f (ArgVal.str "advisory") = p := Option.some.inj hkp
          exact hlr (k, f) (recordGet_mem hfk) "advisory" (by decide)

theorem getPolicies_explicit_beats_global_witness :
    getPolicies sampleTable
        (ArgsParam.obj [("all", ArgVal.str "disabled"),
          ("encryptedVolumes", ArgVal.str "mandatory")])
      = [encryptedFactory (ArgVal.str "mandatory")]
    ∧ getPolicies sampleTable
        (ArgsParam.obj [("all", ArgVal.str "advisory"),
          ("encryptedVolumes", ArgVal.str "disabled")])
      = [volumeFactory (ArgVal.str "advisory")] := by
  have h := getPolicies_explicit_beats_global sampleTable "encryptedVolumes"
    encryptedFactory (by decide) (by decide) rfl
    (fun e he s hs => by
      rcases List.mem_cons.mp he with rfl | he2
      · exact guardFactory_level _ _ s hs
      · rcases List.mem_cons.mp he2 with rfl | he3
        · exact guardFactory_level _ _ s hs
        · cases he3)
  exact ⟨h.1.1, h.2.1.trans (by decide)⟩

/-- The syntactic-sugar equation at the heart of C5: at the
`getValueOrDefault` level, a bare level string and the object
`{ enforcementLevel: level }` produce the same effective bag. -/
theorem gvd_level_sugar (l : String) (hl : isEnforcementLevel l = true) (d : JSObj) :
    getValueOrDefault (ArgVal.str l) d
      = getValueOrDefault (ArgVal.obj [("enforcementLevel", FieldVal.vstr l)]) d := by
  have hne := level_ne_empty hl
  simp [getValueOrDefault, hne, hl, gvdStep]

theorem guardFactory_obj_level (nm : String) (dbag : JSObj) (l : String)
    (hl : isEnforcementLevel l = true) :
    guardFactory nm dbag (ArgVal.obj [("enforcementLevel", FieldVal.vstr l)])
      = guardFactory nm dbag (ArgVal.str l) := by
  unfold guardFactory
  rw [gvd_level_sugar l hl dbag]

theorem normalizeArgs_cons (k : String) (hk : k ≠ "all") (ov : ArgVal) (A : ArgsObj) :
    normalizeArgs (ArgsParam.obj ((k, ov) :: A))
      = (k, ov) :: (if argTruthy ((recordGet A "all").getD ArgVal.undef) then A
          else recordSet A "all" (ArgVal.str defaultEnforcementLevel)) := by
  have hga : recordGet ((k, ov) :: A) "all" = recordGet A "all" := by
    simp [recordGet, hk]
  have hsa : recordSet ((k, ov) :: A) "all" (ArgVal.str defaultEnforcementLevel)
      = (k, ov) :: recordSet A "all" (ArgVal.str defaultEnforcementLevel) := by
    simp [recordSet, hk]
  simp only [normalizeArgs]
  rw [show ((((k, ov) :: A).length == 0)) = false from rfl]
  simp only [Bool.false_eq_true, if_false, hga, hsa]
  by_cases ht : argTruthy ((recordGet A "all").getD ArgVal.undef)
  · simp [ht]
  · simp [ht]

theorem resolveKey_congr (factories : FactoryTable) (a1 a2 : ArgsObj) (key : String)
    (h1 : recordGet a1 key = recordGet a2 key)
    (h2 : recordGet a1 "all" = recordGet a2 "all") :
    resolveKey factories a1 key = resolveKey factories a2 key := by
  unfold resolveKey
  simp only [recordHas, h1, h2]

/-- C5: for every enforcement level `l` of the closed set, a per-rule
override given as the bare level `l` resolves exactly like the override
object `{ enforcementLevel: l }`: the two produce the same effective bag
under `getValueOrDefault`, and substituting one for the other in a user
configuration leaves the entire resolved policy list unchanged (same
policies, same levels, same inclusion or exclusion).  The `hg` hypothesis
states that the registered factories follow the `getValueOrDefault`
pattern of the rule modules. -/
theorem bare_level_equals_object_level
    (l : String) (hl : isEnforcementLevel l = true) (d : JSObj)
    (factories : FactoryTable) (k : String) (A : ArgsObj) (hk : k ≠ "all")
    (hg : ∀ e ∈ factories, ∃ nm dbag, e.2 = guardFactory nm dbag) :
    getValueOrDefault (ArgVal.str l) d
      = getValueOrDefault (ArgVal.obj [("enforcementLevel", FieldVal.vstr l)]) d
    ∧ getPolicies factories (ArgsParam.obj ((k, ArgVal.str l) :: A))
      = getPolicies factories
          (ArgsParam.obj
            ((k, ArgVal.obj [("enforcementLevel", FieldVal.vstr l)]) :: A)) := by
  refine ⟨gvd_level_sugar l hl d, ?_⟩
  rw [getPolicies_eq_filterMap, getPolicies_eq_filterMap,
    normalizeArgs_cons k hk _ A, normalizeArgs_cons k hk _ A]
  apply List.filterMap_congr
  intro key _
  by_cases hkk : key = k
  · subst hkk
    cases hfk : recordGet factories key with
    | none => simp [resolveKey, hfk]
    | some factory =>
        obtain ⟨nm, dbag, hfac⟩ := hg (key, factory) (recordGet_mem hfk)
        have hfac2 : factory = guardFactory nm dbag := hfac
        subst hfac2
        rw [resolveKey_eval factories _ key _ hfk,
          resolveKey_eval factories _ key _ hfk]
        have hov1 : recordGet ((key, ArgVal.str l)
            :: (if argTruthy ((recordGet A "all").getD ArgVal.undef) then A
                else recordSet A "all" (ArgVal.str defaultEnforcementLevel))) key
            = some (ArgVal.str l) := by
          simp [recordGet]
        have hov2 : recordGet ((key, ArgVal.obj [("enforcementLevel", FieldVal.vstr l)])
            :: (if argTruthy ((recordGet A "all").getD ArgVal.undef) then A
                else recordSet A "all" (ArgVal.str defaultEnforcementLevel))) key
            = some (ArgVal.obj [("enforcementLevel", FieldVal.vstr l)]) := by
          simp [recordGet]
        simp only [recordHas, hov1, hov2, Option.isSome_some, if_true,
          Option.getD_some]
        have htr : argTruthy (ArgVal.str l) = true := by
          simp [argTruthy, level_ne_empty hl]
        simp only [htr, if_true, argTruthy]
        rcases isEnforcementLevel_cases hl with rfl | rfl | rfl
        · rw [guardFactory_obj_level nm dbag _ (by decide)]
          rfl
        · rw [guardFactory_obj_level nm dbag _ (by decide)]
          rfl
        · have hlev : (guardFactory nm dbag
              (ArgVal.obj [("enforcementLevel", FieldVal.vstr "disabled")])).enforcementLevel
              = FieldVal.vstr "disabled" := by
            rw [guardFactory_obj_level nm dbag _ (by decide)]
            exact guardFactory_level nm dbag _ (by decide)
          have hkeep : keepPolicy (guardFactory nm dbag
              (ArgVal.obj [("enforcementLevel", FieldVal.vstr "disabled")])) = false := by
            simp only [keepPolicy, hlev]
            decide
          simp [isDisabledArg, isEnforcementLevel, enforcementLevels,
            Option.filter, hkeep]
  · have h1 : recordGet ((k, ArgVal.str l)
        :: (if argTruthy ((recordGet A "all").getD ArgVal.undef) then A
            else recordSet A "all" (ArgVal.str defaultEnforcementLevel))) key
        = recordGet ((k, ArgVal.obj [("enforcementLevel", FieldVal.vstr l)])
        :: (if argTruthy ((recordGet A "all").getD ArgVal.undef) then A
            else recordSet A "all" (ArgVal.str defaultEnforcementLevel))) key := by
      have hne : k ≠ key := fun h => hkk h.symm
      simp [recordGet, hne]
    have h2 : recordGet ((k, ArgVal.str l)
        :: (if argTruthy ((recordGet A "all").getD ArgVal.undef) then A
            else recordSet A "all" (ArgVal.str defaultEnforcementLevel))) "all"
        = recordGet ((k, ArgVal.obj [("enforcementLevel", FieldVal.vstr l)])
        :: (if argTruthy ((recordGet A "all").getD ArgVal.undef) then A
            else recordSet A "all" (ArgVal.str defaultEnforcementLevel))) "all" := by
      simp [recordGet, hk]
    rw [resolveKey_congr factories _ _ key h1 h2]

theorem bare_level_equals_object_level_witness :
    getValueOrDefault (ArgVal.str "disabled")
        [("enforcementLevel", FieldVal.vstr "advisory"), ("kmsId", FieldVal.vundef)]
      = getValueOrDefault (ArgVal.obj [("enforcementLevel", FieldVal.vstr "disabled")])
        [("enforcementLevel", FieldVal.vstr "advisory"), ("kmsId", FieldVal.vundef)]
    ∧ getPolicies sampleTable
        (ArgsParam.obj [("encryptedVolumes", ArgVal.str "disabled"),
          ("all", ArgVal.str "advisory")])
      = getPolicies sampleTable
        (ArgsParam.obj [("encryptedVolumes",
            ArgVal.obj [("enforcementLevel", FieldVal.vstr "disabled")]),
          ("all", ArgVal.str "advisory")]) :=
  bare_level_equals_object_level "disabled" (by decide)
    [("enforcementLevel", FieldVal.vstr "advisory"), ("kmsId", FieldVal.vundef)]
    sampleTable "encryptedVolumes" [("all", ArgVal.str "advisory")]
    (by decide)
    (fun e he => by
      rcases List.mem_cons.mp he with rfl | he2
      · exact ⟨"ec2-volume-inuse-check",
          [("enforcementLevel", FieldVal.vstr defaultEnforcementLevel),
           ("checkDeletion", FieldVal.vbool true)], rfl⟩
      · rcases List.mem_cons.mp he2 with rfl | he3
        · exact ⟨"encrypted-volumes",
            [("enforcementLevel", FieldVal.vstr defaultEnforcementLevel),
             ("kmsId", FieldVal.vundef)], rfl⟩
        · cases he3)

theorem runPolicy_throwing_callback_witness :
    runPolicy ⟨"p", ValidateResource.array
        ([okValidation] ++ throwValidation :: [okValidation])⟩ sampleSubject
      = Except.error "boom" :=
  (runPolicy_throwing_callback_propagates "p" [okValidation] [okValidation]
    throwValidation sampleSubject "boom"
    (fun u hu => by
      rw [List.mem_singleton] at hu
      subst hu
      exact ⟨_, rfl⟩)
    rfl).1

end AwsGuard
